import Mathlib

/-!
# Verification of the DupliCheck duplicate-file cleaner

A shallow embedding of `src/linux/DupliCheck-linux.py` and proofs about it.

The program is a linear pipeline: enumerate files, compute (or reuse a
cached) SHA-256 content hash per file, group paths by hash, delete all but
the first path of each duplicate group, and append rows to a CSV log.

Modelling conventions:
* file contents are byte lists (`List Nat`, each entry a byte value);
* the filesystem is a record of functions giving, per path, the `os.stat`
  outcome, the read outcome during the hashing pass, the read outcome
  during the resolution pass (the filesystem may change between the two
  passes), and the `os.remove` outcome;
* Python exceptions are `Except String` / explicit error constructors;
* Python dicts are insertion-ordered association lists;
* the JSON cache round trip is modelled precisely enough to distinguish a
  Python tuple from a Python list, since `json` serialises a tuple as an
  array and loads it back as a list, and `tuple == list` is `False` in
  Python regardless of the elements.
-/

namespace DupliCheck

/-! ## SHA-256 over byte lists (FIPS 180-4), arithmetic in `Nat` mod 2^32 -/

/-- 2^32, the modulus for 32-bit word arithmetic. -/
def w32 : Nat := 4294967296

/-- Right rotation of a 32-bit word (input assumed `< 2^32`). -/
def rotr (n x : Nat) : Nat := ((x >>> n) + ((x % (2 ^ n)) <<< (32 - n))) % w32

/-- Bitwise complement within 32 bits. -/
def not32 (x : Nat) : Nat := x ^^^ 4294967295

/-- `Ch(x,y,z) = (x ∧ y) ⊕ (¬x ∧ z)`. -/
def chF (x y z : Nat) : Nat := (x &&& y) ^^^ (not32 x &&& z)

/-- `Maj(x,y,z) = (x ∧ y) ⊕ (x ∧ z) ⊕ (y ∧ z)`. -/
def majF (x y z : Nat) : Nat := (x &&& y) ^^^ (x &&& z) ^^^ (y &&& z)

/-- `Σ₀`. -/
def bsig0 (x : Nat) : Nat := rotr 2 x ^^^ rotr 13 x ^^^ rotr 22 x

/-- `Σ₁`. -/
def bsig1 (x : Nat) : Nat := rotr 6 x ^^^ rotr 11 x ^^^ rotr 25 x

/-- `σ₀`. -/
def ssig0 (x : Nat) : Nat := rotr 7 x ^^^ rotr 18 x ^^^ (x >>> 3)

/-- `σ₁`. -/
def ssig1 (x : Nat) : Nat := rotr 17 x ^^^ rotr 19 x ^^^ (x >>> 10)

/-- The 64 SHA-256 round constants of FIPS 180-4 (decimal). -/
def sha256K : List Nat :=
  [1116352408, 1899447441, 3049323471, 3921009573, 961987163, 1508970993,
   2453635748, 2870763221, 3624381080, 310598401, 607225278, 1426881987,
   1925078388, 2162078206, 2614888103, 3248222580, 3835390401, 4022224774,
   264347078, 604807628, 770255983, 1249150122, 1555081692, 1996064986,
   2554220882, 2821834349, 2952996808, 3210313671, 3336571891, 3584528711,
   113926993, 338241895, 666307205, 773529912, 1294757372, 1396182291,
   1695183700, 1986661051, 2177026350, 2456956037, 2730485921, 2820302411,
   3259730800, 3345764771, 3516065817, 3600352804, 4094571909, 275423344,
   430227734, 506948616, 659060556, 883997877, 958139571, 1322822218,
   1537002063, 1747873779, 1955562222, 2024104815, 2227730452, 2361852424,
   2428436474, 2756734187, 3204031479, 3329325298]

/-- The eight working variables / chaining values of SHA-256. -/
structure H8 where
  a : Nat
  b : Nat
  c : Nat
  d : Nat
  e : Nat
  f : Nat
  g : Nat
  h : Nat
deriving Repr, DecidableEq

/-- The SHA-256 initial hash value of FIPS 180-4 (decimal). -/
def initH : H8 :=
  ⟨1779033703, 3144134277, 1013904242, 2773480762,
   1359893119, 2600822924, 528734635, 1541459225⟩

/-- A file content: a list of byte values. -/
abbrev Content := List Nat

/-- Split a byte list into consecutive chunks of size `s` (fuel-driven so the
kernel can evaluate it; `fuel ≥ length` suffices, as guaranteed by
`readChunks`). This models the `while chunk := f.read(chunk_size)` loop of
`hash_file` and is reused to cut padded messages into 64-byte blocks and
blocks into 4-byte words. -/
def readChunksF : Nat → Nat → Content → List Content
  | _, _, [] => []
  | 0, _, _ :: _ => []
  | fuel + 1, s, b :: rest => ((b :: rest).take s) :: readChunksF fuel s ((b :: rest).drop s)

/-- Split a byte list into consecutive chunks of size `s` (`s ≥ 1`). -/
def readChunks (s : Nat) (c : Content) : List Content := readChunksF c.length s c

/-- Big-endian word from a list of bytes. -/
def toWord (bs : List Nat) : Nat := bs.foldl (fun a b => a * 256 + b) 0

/-- Big-endian 4-byte serialisation of a 32-bit word. -/
def wordBytes (w : Nat) : List Nat :=
  [w / 16777216 % 256, w / 65536 % 256, w / 256 % 256, w % 256]

/-- Big-endian 8-byte serialisation of a 64-bit length field. -/
def lenBytes (n : Nat) : List Nat :=
  [n / 2 ^ 56 % 256, n / 2 ^ 48 % 256, n / 2 ^ 40 % 256, n / 2 ^ 32 % 256,
   n / 2 ^ 24 % 256, n / 2 ^ 16 % 256, n / 2 ^ 8 % 256, n % 256]

/-- SHA-256 padding: append `0x80`, zero bytes, and the 64-bit big-endian
bit length, reaching a multiple of 64 bytes. -/
def padMsg (m : Content) : Content :=
  m ++ [0x80] ++ List.replicate ((64 - (m.length + 9) % 64) % 64) 0 ++ lenBytes (8 * m.length)

/-- Extend the 16 block words to the 64-entry message schedule. -/
def schedule (ws : List Nat) : List Nat :=
  (List.range 48).foldl
    (fun acc _ =>
      let n := acc.length
      acc ++ [(ssig1 (acc.getD (n - 2) 0) + acc.getD (n - 7) 0 +
               ssig0 (acc.getD (n - 15) 0) + acc.getD (n - 16) 0) % w32])
    ws

/-- One SHA-256 round. -/
def sha256Round (st : H8) (kw : Nat × Nat) : H8 :=
  let t1 := (st.h + bsig1 st.e + chF st.e st.f st.g + kw.1 + kw.2) % w32
  let t2 := (bsig0 st.a + majF st.a st.b st.c) % w32
  ⟨(t1 + t2) % w32, st.a, st.b, st.c, (st.d + t1) % w32, st.e, st.f, st.g⟩

/-- Compress one 64-byte block into the chaining value. -/
def compress (H : H8) (block : Content) : H8 :=
  let ws := schedule ((readChunks 4 block).map toWord)
  let st := (sha256K.zip ws).foldl sha256Round H
  ⟨(H.a + st.a) % w32, (H.b + st.b) % w32, (H.c + st.c) % w32, (H.d + st.d) % w32,
   (H.e + st.e) % w32, (H.f + st.f) % w32, (H.g + st.g) % w32, (H.h + st.h) % w32⟩

/-- The 32-byte SHA-256 digest of a byte list. -/
def sha256bytes (m : Content) : List Nat :=
  let Hf := (readChunks 64 (padMsg m)).foldl compress initH
  wordBytes Hf.a ++ wordBytes Hf.b ++ wordBytes Hf.c ++ wordBytes Hf.d ++
  wordBytes Hf.e ++ wordBytes Hf.f ++ wordBytes Hf.g ++ wordBytes Hf.h

/-- Lower-case hexadecimal digit. -/
def hexDigit (n : Nat) : Char := if n < 10 then Char.ofNat (48 + n) else Char.ofNat (87 + n)

/-- Two-character hexadecimal rendering of a byte. -/
def byteHex (b : Nat) : List Char := [hexDigit (b / 16 % 16), hexDigit (b % 16)]

/-- The 64-character hexadecimal SHA-256 digest of a byte list, as returned
by `hasher.hexdigest()`. -/
def sha256hex (m : Content) : String := String.mk (((sha256bytes m).map byteHex).flatten)

/-- The state of a `hashlib.sha256()` accumulator, modelled by the library
contract: the eventual digest is the digest of the concatenation of all
bytes fed to `update`. The state is that accumulated byte list. -/
def sha256_update (st : Content) (chunk : Content) : Content := st ++ chunk

/-- `hasher.hexdigest()` on an accumulator state. -/
def sha256_hexdigest (st : Content) : String := sha256hex st

/-- `hash_file`: stream the file in fixed 65536-byte chunks through the
accumulator and return the hexadecimal digest. -/
def hash_file (c : Content) : String :=
  sha256_hexdigest (((readChunks 65536 c).foldl sha256_update []))

/-! ### Chunking lemmas -/

theorem readChunksF_flatten (s : Nat) (hs : 1 ≤ s) :
    ∀ (fuel : Nat) (c : Content), c.length ≤ fuel → (readChunksF fuel s c).flatten = c := by
  intro fuel
  induction fuel with
  | zero =>
    intro c hc
    match c with
    | [] => simp [readChunksF]
    | b :: rest => simp at hc
  | succ f ih =>
    intro c hc
    match c with
    | [] => simp [readChunksF]
    | b :: rest =>
      rw [readChunksF, List.flatten_cons, ih ((b :: rest).drop s) ?_, List.take_append_drop]
      have hdrop : ((b :: rest).drop s).length = rest.length + 1 - s := by
        simp [List.length_drop]
      have : rest.length + 1 - s ≤ rest.length := by omega
      simp at hc
      omega

/-- Joining the chunks recovers the content. -/
theorem readChunks_flatten (s : Nat) (hs : 1 ≤ s) (c : Content) :
    (readChunks s c).flatten = c :=
  readChunksF_flatten s hs c.length c (Nat.le_refl _)

theorem readChunksF_len_le (s : Nat) :
    ∀ (fuel : Nat) (c : Content) (ch : Content), ch ∈ readChunksF fuel s c → ch.length ≤ s := by
  intro fuel
  induction fuel with
  | zero =>
    intro c ch hch
    match c with
    | [] => simp [readChunksF] at hch
    | b :: rest => simp [readChunksF] at hch
  | succ f ih =>
    intro c ch hch
    match c with
    | [] => simp [readChunksF] at hch
    | b :: rest =>
      rw [readChunksF] at hch
      rcases List.mem_cons.mp hch with h | h
      · subst h; simp [List.length_take_le s (b :: rest)]
      · exact ih _ _ h

/-- Every chunk has at most the chunk size. -/
theorem readChunks_len_le (s : Nat) (c ch : Content) (h : ch ∈ readChunks s c) :
    ch.length ≤ s :=
  readChunksF_len_le s c.length c ch h

/-- Folding `update` over chunks accumulates their concatenation. -/
theorem foldl_update_eq_flatten (chunks : List Content) :
    ∀ (st : Content), chunks.foldl sha256_update st = st ++ chunks.flatten := by
  induction chunks with
  | nil => intro st; simp
  | cons ch rest ih =>
    intro st
    rw [List.foldl_cons, ih, List.flatten_cons]
    simp [sha256_update]

/-! ### Digest length lemmas -/

theorem sha256bytes_length (m : Content) : (sha256bytes m).length = 32 := by
  simp [sha256bytes, wordBytes]

theorem flatten_map_byteHex_length (l : List Nat) :
    ((l.map byteHex).flatten).length = 2 * l.length := by
  induction l with
  | nil => simp
  | cons b rest ih =>
    simp [byteHex, ih]
    omega

/-- The hexadecimal digest always has 64 characters. -/
theorem sha256hex_length (m : Content) : (sha256hex m).length = 64 := by
  show (((sha256bytes m).map byteHex).flatten).length = 64
  rw [flatten_map_byteHex_length, sha256bytes_length]

/-! ## The data model of the pipeline -/

/-- A file path (`os.path.join(root, name)` strings). -/
abbrev Path := String

/-- An `os.stat` signature: `(st_mtime, st_size)`. The modification time is
modelled as an abstract scalar whose JSON round trip is exact (Python's
`json` reproduces the float value), since only equality of signatures is
ever consulted. -/
structure Sig where
  mtime : Int
  size : Nat
deriving Repr, DecidableEq

/-- A signature value as Python sees it: `get_file_signature` produces a
tuple, while `json.load` produces a list (JSON has no tuples, so
`json.dump` writes the tuple as an array and `json.load` reads it back as
a list). Python's `==` never identifies a tuple with a list. -/
inductive PySig where
  | tup (s : Sig)
  | lst (s : Sig)
deriving Repr, DecidableEq

/-- Python `==` on signature values: element-wise within the same shape,
`False` across tuple/list shapes. -/
def pySigEq : PySig → PySig → Bool
  | .tup a, .tup b => decide (a = b)
  | .lst a, .lst b => decide (a = b)
  | .tup _, .lst _ => false
  | .lst _, .tup _ => false

/-- The underlying `(mtime, size)` values of a signature value. -/
def sigPayload : PySig → Sig
  | .tup s => s
  | .lst s => s

/-- One value of the in-memory cache dict: `{'sig': ..., 'hash': ...}`. -/
structure CacheEntry where
  sig : PySig
  hash : String
deriving Repr, DecidableEq

/-- The persisted JSON cache file content, already parsed: a mapping from
path to the `[mtime, size]` array and the hex digest. -/
abbrev JsonCache := List (Path × Sig × String)

/-- `load_cache`: read and parse the cache file if it exists (`none` models
an absent file). Every signature parsed from JSON is a Python list. -/
def load_cache : Option JsonCache → List (Path × CacheEntry)
  | none => []
  | some j => j.map (fun e => (e.1, { sig := PySig.lst e.2.1, hash := e.2.2 }))

/-- `save_cache`: serialise the in-memory mapping to JSON (tuples become
arrays). -/
def save_cache (c : List (Path × CacheEntry)) : JsonCache :=
  c.map (fun e => (e.1, sigPayload e.2.sig, e.2.hash))

/-- Outcome of `os.stat` on a path: found with a signature, missing
(`FileNotFoundError`), or failing with some other `OSError`. -/
inductive StatRes where
  | found (s : Sig)
  | notFound
  | statError (e : String)
deriving Repr, DecidableEq

/-- Outcome of opening and fully reading a file. -/
inductive ReadRes where
  | ok (c : Content)
  | readError (e : String)
deriving Repr, DecidableEq

/-- Outcome of `os.remove`. -/
inductive DeleteRes where
  | ok
  | err (e : String)
deriving Repr, DecidableEq

/-- The filesystem as observed by one run. `statOf` and `readOf` are the
per-path outcomes during the hashing pass; `readOf2` is the per-path read
outcome during the resolution pass (the disk may have changed in between);
`deleteOf` is the `os.remove` outcome during the resolution pass. -/
structure FS where
  statOf : Path → StatRes
  readOf : Path → ReadRes
  readOf2 : Path → ReadRes
  deleteOf : Path → DeleteRes

/-- `get_file_signature`: `FileNotFoundError` yields `None` (modelled
`some none`... here: `.ok none`); any other `OSError` propagates. -/
def get_file_signature (r : StatRes) : Except String (Option Sig) :=
  match r with
  | .found s => .ok (some s)
  | .notFound => .ok none
  | .statError e => .error e

/-! Association-list operations mirroring Python dict semantics
(insertion order preserved; assignment replaces in place). -/

/-- `d.get(k)`. -/
def assocGet {β : Type} : List (Path × β) → Path → Option β
  | [], _ => none
  | (k', v') :: rest, k => if k' = k then some v' else assocGet rest k

/-- `d[k] = v`. -/
def assocSet {β : Type} : List (Path × β) → Path → β → List (Path × β)
  | [], k, v => [(k, v)]
  | (k', v') :: rest, k, v =>
    if k' = k then (k, v) :: rest else (k', v') :: assocSet rest k v

/-- `defaultdict(list)`: `d[h].append(p)`. -/
def dictAppend : List (String × List Path) → String → Path → List (String × List Path)
  | [], h, p => [(h, [p])]
  | (k, v) :: rest, h, p =>
    if k = h then (k, v ++ [p]) :: rest else (k, v) :: dictAppend rest h p

/-- Mutable state of the hashing/grouping loop, plus instrumentation:
`hashedPaths` records every path for which `hash_file` was invoked (i.e.
for which file content was read or a read was attempted). -/
structure GState where
  updated_cache : List (Path × CacheEntry)
  hashes : List (String × List Path)
  hashedPaths : List Path
  msgs : List String
deriving Repr, DecidableEq

/-- The empty grouping state. -/
def initG : GState := ⟨[], [], [], []⟩

/-- One iteration of the hashing loop for `file_path`:
signature check, cache lookup, hash (from cache or by reading), cache
record, group append. A stat error propagates as an exception. -/
def processFile (cache : List (Path × CacheEntry)) (fs : FS) (st : GState) (p : Path) :
    Except String GState :=
  match get_file_signature (fs.statOf p) with
  | .error e => .error e
  | .ok none => .ok st
  | .ok (some sig) =>
    let record := fun (h : String) (hashed : Bool) =>
      { st with
        updated_cache := assocSet st.updated_cache p { sig := PySig.tup sig, hash := h }
        hashes := dictAppend st.hashes h p
        hashedPaths := if hashed then st.hashedPaths ++ [p] else st.hashedPaths }
    let hashBranch : Except String GState :=
      match fs.readOf p with
      | .ok c => .ok (record (hash_file c) true)
      | .readError e =>
        .ok { st with
              hashedPaths := st.hashedPaths ++ [p]
              msgs := st.msgs ++ ["Error hashing " ++ p ++ ": " ++ e] }
    match assocGet cache p with
    | some entry =>
      if pySigEq entry.sig (PySig.tup sig) then .ok (record entry.hash false)
      else hashBranch
    | none => hashBranch

/-- The hashing loop over the enumerated files. -/
def groupingPass (cache : List (Path × CacheEntry)) (fs : FS) :
    List Path → GState → Except String GState
  | [], st => .ok st
  | p :: rest, st =>
    match processFile cache fs st p with
    | .error e => .error e
    | .ok st' => groupingPass cache fs rest st'

/-- A CSV row: its list of cells. -/
abbrev Row := List String

/-- The header row written when the log file is first created. -/
def headerRow : Row := ["Timestamp", "Action", "File Path", "Hash"]

/-- The outcome of resolving one duplicate group, with instrumentation:
the dict key the group was filed under (`ghash`), the kept path, the hash
recomputed for the kept path, the deletion attempts in order, the
successfully deleted paths, the rows written and the console messages. -/
structure GroupOutcome where
  ghash : String
  kept : Path
  keptHash : String
  attempts : List Path
  deletedHere : List Path
  rows : List Row
  msgs : List String
deriving Repr, DecidableEq, Inhabited

/-- The `for duplicate in file_list[1:]` loop: attempt each deletion,
writing a `Deleted` or `Failed` row and continuing either way. -/
def resolveDups (fs : FS) (ts hk : String) : List Path → GroupOutcome → GroupOutcome
  | [], o => o
  | dup :: rest, o =>
    match fs.deleteOf dup with
    | .ok =>
      resolveDups fs ts hk rest
        { o with
          attempts := o.attempts ++ [dup]
          deletedHere := o.deletedHere ++ [dup]
          rows := o.rows ++ [[ts, "Deleted", dup, hk]]
          msgs := o.msgs ++ ["Deleted: " ++ dup] }
    | .err e =>
      resolveDups fs ts hk rest
        { o with
          attempts := o.attempts ++ [dup]
          rows := o.rows ++ [[ts, "Failed", dup, hk ++ " (" ++ e ++ ")"]]
          msgs := o.msgs ++ ["Failed to delete " ++ dup ++ ": " ++ e] }

/-- Resolve one duplicate group: recompute the kept file's hash (any
exception propagates), write the `Kept` row, then attempt the deletions. -/
def resolveGroup (fs : FS) (ts : String) (h : String) (paths : List Path) :
    Except String GroupOutcome :=
  match paths with
  | [] => .error "IndexError: list index out of range"
  | kept :: rest =>
    match fs.readOf2 kept with
    | .readError e => .error e
    | .ok content =>
      let hk := hash_file content
      .ok (resolveDups fs ts hk rest
        { ghash := h, kept := kept, keptHash := hk, attempts := [], deletedHere := [],
          rows := [[ts, "Kept", kept, hk]], msgs := [] })

/-- The loop over duplicate groups. Returns the outcomes of the groups
fully processed and, if the kept-file rehash of some group raised, the
propagated error (later groups are then never reached). -/
def resolvePass (fs : FS) (ts : String) :
    List (String × List Path) → List GroupOutcome → List GroupOutcome × Option String
  | [], acc => (acc, none)
  | (h, paths) :: rest, acc =>
    match resolveGroup fs ts h paths with
    | .error e => (acc, some e)
    | .ok o => resolvePass fs ts rest (acc ++ [o])

/-- All rows written during the resolution phase, in order. -/
def rowsOfGroups (gs : List GroupOutcome) : List Row := (gs.map GroupOutcome.rows).flatten

/-- All successfully deleted paths, in order. -/
def deletedOfGroups (gs : List GroupOutcome) : List Path :=
  (gs.map GroupOutcome.deletedHere).flatten

/-- The observable outcome of one `find_duplicates` run. `savedCache` is
`some` exactly when `save_cache` executed; `logAfter` is the log file after
the run (`none` = the file does not exist); `error` is `some` exactly when
an unhandled exception propagated out of the run. -/
structure RunOut where
  savedCache : Option (List (Path × CacheEntry))
  logAfter : Option (List Row)
  deleted : List Path
  totalDeleted : Nat
  groups : List GroupOutcome
  hashedPaths : List Path
  error : Option String
  noDupReported : Bool
  msgs : List String
deriving Repr

/-- The grouping half of `find_duplicates` (everything before
`save_cache`). -/
def groupedState (fs : FS) (all_files : List Path) (cacheFile : Option JsonCache) :
    Except String GState :=
  groupingPass (load_cache cacheFile) fs all_files initG

/-- The duplicate sets: groups with more than one path, in first-seen
order. -/
def duplicatesOf (fs : FS) (all_files : List Path) (cacheFile : Option JsonCache) :
    List (String × List Path) :=
  match groupedState fs all_files cacheFile with
  | .error _ => []
  | .ok gst => gst.hashes.filter (fun q => 1 < q.2.length)

/-- The whole `find_duplicates` run. Inputs: the filesystem observations,
the enumerated file list (`os.walk` order), the parsed cache file (`none`
= absent), the log file before the run (`none` = absent) and the timestamp
string captured at the start of the resolution phase. -/
def find_duplicates (fs : FS) (all_files : List Path) (cacheFile : Option JsonCache)
    (logBefore : Option (List Row)) (ts : String) : RunOut :=
  match groupedState fs all_files cacheFile with
  | .error e =>
    { savedCache := none, logAfter := logBefore, deleted := [], totalDeleted := 0,
      groups := [], hashedPaths := [], error := some e, noDupReported := false, msgs := [] }
  | .ok gst =>
    let duplicates := gst.hashes.filter (fun q => 1 < q.2.length)
    if duplicates.isEmpty then
      { savedCache := some gst.updated_cache, logAfter := logBefore, deleted := [],
        totalDeleted := 0, groups := [], hashedPaths := gst.hashedPaths, error := none,
        noDupReported := true, msgs := gst.msgs ++ ["No duplicates found."] }
    else
      let oldRows := logBefore.getD []
      let headerRows := if logBefore.isSome then ([] : List Row) else [headerRow]
      let res := resolvePass fs ts duplicates []
      let del := deletedOfGroups res.1
      { savedCache := some gst.updated_cache
        logAfter := some (oldRows ++ headerRows ++ rowsOfGroups res.1)
        deleted := del
        totalDeleted := del.length
        groups := res.1
        hashedPaths := gst.hashedPaths
        error := res.2
        noDupReported := false
        msgs := gst.msgs ++ (res.1.map GroupOutcome.msgs).flatten ++
          (match res.2 with
           | none => ["Deleted " ++ toString del.length ++ " duplicate files."]
           | some _ => []) }

/-! ### Multi-run model (cache file and log file threaded across runs) -/

/-- The inputs of one run in a sequence of runs. -/
structure RunInput where
  fs : FS
  files : List Path
  ts : String

/-- Persistent state between runs: the cache file and the log file. -/
structure MState where
  cacheFile : Option JsonCache
  log : Option (List Row)

/-- Execute one run against the persistent state. -/
def runStep (inp : RunInput) (st : MState) : MState :=
  let r := find_duplicates inp.fs inp.files st.cacheFile st.log inp.ts
  { cacheFile := match r.savedCache with
      | some c => some (save_cache c)
      | none => st.cacheFile
    log := r.logAfter }

/-- Execute a sequence of runs. -/
def multiRun (runs : List RunInput) (st : MState) : MState :=
  runs.foldl (fun s i => runStep i s) st

/-- The rows of a possibly-absent log file. -/
def rowsOfLog : Option (List Row) → List Row
  | none => []
  | some rs => rs

/-- How many times the header row occurs in a possibly-absent log file. -/
def headerCount (l : Option (List Row)) : Nat := (rowsOfLog l).count headerRow

/-! ## Helper lemmas about the resolution loop -/

/-- The row the deletion loop writes for candidate `q`. -/
def dupRow (fs : FS) (ts hk : String) (q : Path) : Row :=
  match fs.deleteOf q with
  | .ok => [ts, "Deleted", q, hk]
  | .err e => [ts, "Failed", q, hk ++ " (" ++ e ++ ")"]

/-- The console message the deletion loop prints for candidate `q`. -/
def dupMsg (fs : FS) (q : Path) : String :=
  match fs.deleteOf q with
  | .ok => "Deleted: " ++ q
  | .err e => "Failed to delete " ++ q ++ ": " ++ e

/-- Whether the deletion of `q` succeeds. -/
def delOk (fs : FS) (q : Path) : Bool := decide (fs.deleteOf q = DeleteRes.ok)

/-- Closed form of the deletion loop. -/
theorem resolveDups_eq (fs : FS) (ts hk : String) :
    ∀ (l : List Path) (o : GroupOutcome),
      resolveDups fs ts hk l o =
        { o with
          attempts := o.attempts ++ l
          deletedHere := o.deletedHere ++ l.filter (delOk fs)
          rows := o.rows ++ l.map (dupRow fs ts hk)
          msgs := o.msgs ++ l.map (dupMsg fs) } := by
  intro l
  induction l with
  | nil => intro o; simp [resolveDups]
  | cons dup rest ih =>
    intro o
    rw [resolveDups]
    rcases hdel : fs.deleteOf dup with _ | e <;>
      simp [ih, dupRow, dupMsg, delOk, hdel]

/-- Closed form of resolving one group whose kept-file rehash succeeds. -/
theorem resolveGroup_ok (fs : FS) (ts h : String) (kept : Path) (rest : List Path)
    (c : Content) (hre : fs.readOf2 kept = .ok c) :
    resolveGroup fs ts h (kept :: rest) =
      .ok { ghash := h, kept := kept, keptHash := hash_file c
            attempts := rest
            deletedHere := rest.filter (delOk fs)
            rows := [ts, "Kept", kept, hash_file c] :: rest.map (dupRow fs ts (hash_file c))
            msgs := rest.map (dupMsg fs) } := by
  simp only [resolveGroup, hre, resolveDups_eq]
  simp

/-- A group whose kept-file rehash raises propagates that error. -/
theorem resolveGroup_err (fs : FS) (ts h : String) (kept : Path) (rest : List Path)
    (e : String) (hre : fs.readOf2 kept = .readError e) :
    resolveGroup fs ts h (kept :: rest) = .error e := by
  rw [resolveGroup, hre]

/-- The group loop only grows its accumulator. -/
theorem resolvePass_acc (fs : FS) (ts : String) :
    ∀ (l : List (String × List Path)) (acc : List GroupOutcome),
      resolvePass fs ts l acc =
        (acc ++ (resolvePass fs ts l []).1, (resolvePass fs ts l []).2) := by
  intro l
  induction l with
  | nil => intro acc; simp [resolvePass]
  | cons g rest ih =>
    intro acc
    rcases hg : resolveGroup fs ts g.1 g.2 with e | o
    · simp [resolvePass, hg]
    · simp only [resolvePass, hg]
      rw [ih (acc ++ [o]), ih ([] ++ [o])]
      simp

/-- Splitting the group loop across an append. -/
theorem resolvePass_append (fs : FS) (ts : String) :
    ∀ (l1 l2 : List (String × List Path)) (acc : List GroupOutcome),
      resolvePass fs ts (l1 ++ l2) acc =
        match resolvePass fs ts l1 acc with
        | (acc', none) => resolvePass fs ts l2 acc'
        | (acc', some e) => (acc', some e) := by
  intro l1
  induction l1 with
  | nil => intro l2 acc; simp [resolvePass]
  | cons g rest ih =>
    intro l2 acc
    rw [List.cons_append]
    rcases hg : resolveGroup fs ts g.1 g.2 with e | o
    · simp [resolvePass, hg]
    · simp only [resolvePass, hg]
      exact ih l2 (acc ++ [o])

/-- A completed group loop pairs each duplicate set with its outcome. -/
theorem resolvePass_ok_forall₂ (fs : FS) (ts : String) :
    ∀ (l : List (String × List Path)) (out : List GroupOutcome),
      resolvePass fs ts l [] = (out, none) →
      List.Forall₂ (fun g o => resolveGroup fs ts g.1 g.2 = .ok o) l out := by
  intro l
  induction l with
  | nil =>
    intro out h
    simp [resolvePass] at h
    rw [h]
    exact List.Forall₂.nil
  | cons g rest ih =>
    intro out h
    rcases hg : resolveGroup fs ts g.1 g.2 with e | o <;>
      simp only [resolvePass, hg] at h
    · simp at h
    · rw [resolvePass_acc] at h
      rcases hr : resolvePass fs ts rest [] with ⟨out', err'⟩
      rw [hr] at h
      simp at h
      rcases h with ⟨h1, h2⟩
      subst h1 h2
      exact List.Forall₂.cons hg (ih out' hr)

/-- Every accumulated outcome comes from the accumulator or from a
successfully resolved group of the list. -/
theorem resolvePass_mem (fs : FS) (ts : String) :
    ∀ (l : List (String × List Path)) (acc : List GroupOutcome) (o : GroupOutcome),
      o ∈ (resolvePass fs ts l acc).1 →
      o ∈ acc ∨ ∃ g ∈ l, resolveGroup fs ts g.1 g.2 = .ok o := by
  intro l
  induction l with
  | nil =>
    intro acc o ho
    simp [resolvePass] at ho
    exact Or.inl ho
  | cons g rest ih =>
    intro acc o ho
    rcases hg : resolveGroup fs ts g.1 g.2 with e | o' <;>
      simp only [resolvePass, hg] at ho
    · exact Or.inl ho
    · rcases ih (acc ++ [o']) o ho with hacc | ⟨g', hg', hres⟩
      · rcases List.mem_append.mp hacc with h | h
        · exact Or.inl h
        · simp at h
          subst h
          exact Or.inr ⟨g, List.mem_cons_self _ _, hg⟩
      · exact Or.inr ⟨g', List.mem_cons_of_mem _ hg', hres⟩

/-- Shape of a deletion row. -/
theorem dupRow_shape (fs : FS) (ts hk : String) (q : Path) :
    ∃ a x, dupRow fs ts hk q = [ts, a, q, x] ∧ (a = "Deleted" ∨ a = "Failed") := by
  rcases hdel : fs.deleteOf q with _ | e <;> simp [dupRow, hdel]

/-- Every row of a resolved group is `[timestamp, action, path, hash]` with
the action one of `Kept`, `Deleted`, `Failed`. -/
theorem resolveGroup_rows_shape (fs : FS) (ts h : String) (paths : List Path)
    (o : GroupOutcome) (hok : resolveGroup fs ts h paths = .ok o) :
    ∀ row ∈ o.rows, ∃ a p x, row = [ts, a, p, x] ∧
      (a = "Kept" ∨ a = "Deleted" ∨ a = "Failed") := by
  match paths with
  | [] => simp [resolveGroup] at hok
  | kept :: rest =>
    rcases hre : fs.readOf2 kept with c | e
    · rw [resolveGroup_ok fs ts h kept rest c hre] at hok
      injection hok with hok
      subst hok
      intro row hrow
      simp at hrow
      rcases hrow with hrow | ⟨q, hq, hrow⟩
      · exact ⟨"Kept", kept, hash_file c, hrow, Or.inl rfl⟩
      · rcases dupRow_shape fs ts (hash_file c) q with ⟨a, x, hshape, ha⟩
        exact ⟨a, q, x, by rw [← hrow, hshape], Or.inr ha⟩
    · rw [resolveGroup_err fs ts h kept rest e hre] at hok
      exact absurd hok (by simp)

/-- Splitting the hashing loop across an append. -/
theorem groupingPass_append (cache : List (Path × CacheEntry)) (fs : FS) :
    ∀ (l1 l2 : List Path) (st : GState),
      groupingPass cache fs (l1 ++ l2) st =
        match groupingPass cache fs l1 st with
        | .ok st' => groupingPass cache fs l2 st'
        | .error e => .error e := by
  intro l1
  induction l1 with
  | nil => intro l2 st; simp [groupingPass]
  | cons p rest ih =>
    intro l2 st
    rw [List.cons_append, groupingPass, groupingPass]
    rcases hp : processFile cache fs st p with e | st'
    · simp
    · exact ih l2 st'

/-- Every signature held by a cache loaded from the JSON file is a Python
list, never a tuple. -/
theorem load_cache_sig_lst (j : JsonCache) :
    ∀ (p : Path) (entry : CacheEntry),
      assocGet (load_cache (some j)) p = some entry → ∃ s, entry.sig = PySig.lst s := by
  induction j with
  | nil => intro p entry h; simp [load_cache, assocGet] at h
  | cons e rest ih =>
    intro p entry h
    rw [load_cache, List.map_cons, assocGet] at h
    by_cases hp : e.1 = p
    · rw [if_pos hp] at h
      injection h with h
      exact ⟨e.2.1, by rw [← h]⟩
    · rw [if_neg hp] at h
      exact ih p entry h

/-- A freshly computed signature (a tuple) never compares equal to a
JSON-loaded one (a list): the comparison `cached_entry['sig'] == sig`
in `find_duplicates` is `False` for every entry of a loaded cache. -/
theorem loaded_cache_never_hits (j : JsonCache) (p : Path) (entry : CacheEntry) (s : Sig)
    (h : assocGet (load_cache (some j)) p = some entry) :
    pySigEq entry.sig (PySig.tup s) = false := by
  rcases load_cache_sig_lst j p entry h with ⟨s', hs'⟩
  rw [hs']
  rfl

/-- Against a cache loaded from disk, every file whose `os.stat` succeeds
has its content hashed (or a read attempted): the cache-hit branch is
unreachable. -/
theorem processFile_always_hashes (cf : Option JsonCache) (fs : FS) (st : GState)
    (p : Path) (s : Sig) (hstat : fs.statOf p = .found s) :
    ∃ st', processFile (load_cache cf) fs st p = .ok st' ∧
      st'.hashedPaths = st.hashedPaths ++ [p] := by
  rw [processFile, hstat]
  simp only [get_file_signature]
  rcases hget : assocGet (load_cache cf) p with _ | entry
  · dsimp only
    rcases hread : fs.readOf p with c | e <;> refine ⟨_, rfl, ?_⟩ <;> simp
  · match cf with
    | none => rw [load_cache, assocGet] at hget; exact absurd hget (by simp)
    | some j =>
      dsimp only
      rw [loaded_cache_never_hits j p entry s hget]
      simp only [Bool.false_eq_true, if_false]
      rcases hread : fs.readOf p with c | e <;> refine ⟨_, rfl, ?_⟩ <;> simp

/-! ## Enumeration-order lemmas for the grouping pass -/

/-- `dictAppend` keeps every group's path list a sublist of the processed
prefix extended by the new path. -/
theorem dictAppend_sublist (h : String) (p : Path) (pre : List Path) :
    ∀ (m : List (String × List Path)), (∀ g ∈ m, g.2.Sublist pre) →
      ∀ g ∈ dictAppend m h p, g.2.Sublist (pre ++ [p]) := by
  intro m
  induction m with
  | nil =>
    intro _ g hg
    rw [dictAppend] at hg
    simp at hg
    rw [hg]
    exact List.sublist_append_right pre [p]
  | cons kv rest ih =>
    intro hm g hg
    rw [dictAppend] at hg
    by_cases hk : kv.1 = h
    · rw [if_pos hk] at hg
      rcases List.mem_cons.mp hg with hgh | hgrest
      · rw [hgh]
        exact List.Sublist.append (hm kv (List.mem_cons_self _ _)) (List.Sublist.refl _)
      · exact ((hm g (List.mem_cons_of_mem _ hgrest)).trans (List.sublist_append_left pre [p]))
    · rw [if_neg hk] at hg
      rcases List.mem_cons.mp hg with hgh | hgrest
      · rw [hgh]
        exact ((hm kv (List.mem_cons_self _ _)).trans (List.sublist_append_left pre [p]))
      · exact ih (fun g' hg' => hm g' (List.mem_cons_of_mem _ hg')) g hgrest

/-- `processFile` keeps every group's path list a sublist of the processed
prefix extended by the new path. -/
theorem processFile_sublist (cache : List (Path × CacheEntry)) (fs : FS) (st : GState)
    (p : Path) (pre : List Path) (st' : GState)
    (hok : processFile cache fs st p = .ok st')
    (hpre : ∀ g ∈ st.hashes, g.2.Sublist pre) :
    ∀ g ∈ st'.hashes, g.2.Sublist (pre ++ [p]) := by
  have hmono : ∀ g : String × List Path, g ∈ st.hashes → g.2.Sublist (pre ++ [p]) :=
    fun g hg => (hpre g hg).trans (List.sublist_append_left pre [p])
  rw [processFile] at hok
  rcases hstat : fs.statOf p with s | _ | e <;> rw [hstat] at hok <;>
    simp only [get_file_signature] at hok
  · rcases hget : assocGet cache p with _ | entry <;> rw [hget] at hok <;>
      dsimp only at hok
    · rcases hread : fs.readOf p with c | e <;> rw [hread] at hok <;>
        injection hok with hok <;> rw [← hok]
      · exact dictAppend_sublist _ p pre st.hashes hpre
      · exact hmono
    · by_cases hsig : pySigEq entry.sig (PySig.tup s) = true
      · rw [if_pos hsig] at hok
        injection hok with hok
        rw [← hok]
        exact dictAppend_sublist _ p pre st.hashes hpre
      · rw [if_neg hsig] at hok
        rcases hread : fs.readOf p with c | e <;> rw [hread] at hok <;>
          injection hok with hok <;> rw [← hok]
        · exact dictAppend_sublist _ p pre st.hashes hpre
        · exact hmono
  · injection hok with hok
    rw [← hok]
    exact hmono
  · exact absurd hok (by simp)

/-- Group path lists only ever contain paths in enumeration order: each is
a sublist of the processed files. -/
theorem groupingPass_sublist (cache : List (Path × CacheEntry)) (fs : FS) :
    ∀ (files : List Path) (st : GState) (pre : List Path) (st' : GState),
      (∀ g ∈ st.hashes, g.2.Sublist pre) →
      groupingPass cache fs files st = .ok st' →
      ∀ g ∈ st'.hashes, g.2.Sublist (pre ++ files) := by
  intro files
  induction files with
  | nil =>
    intro st pre st' hpre hok
    rw [groupingPass] at hok
    injection hok with hok
    rw [← hok]
    simp only [List.append_nil]
    exact hpre
  | cons p rest ih =>
    intro st pre st' hpre hok
    rw [groupingPass] at hok
    rcases hp : processFile cache fs st p with e | st1 <;> rw [hp] at hok
    · exact absurd hok (by simp)
    · have h1 := processFile_sublist cache fs st p pre st1 hp hpre
      have := ih st1 (pre ++ [p]) st' h1 hok
      intro g hg
      have hres := this g hg
      rw [List.append_assoc] at hres
      simpa using hres

/-! ## Concrete fixtures used by witnesses and counterexamples -/

/-- The bytes of `"hello"`. -/
def hello : Content := [104, 101, 108, 108, 111]

/-- The bytes of `"world"`. -/
def world : Content := [119, 111, 114, 108, 100]

/-- A filesystem where `a` and `b` hold `"hello"`, everything else holds
`"world"`, nothing changes between passes and every deletion succeeds. -/
def exFS : FS :=
  { statOf := fun p => if p = "a" ∨ p = "b" then .found ⟨1, 5⟩ else .found ⟨2, 5⟩
    readOf := fun p => if p = "a" ∨ p = "b" then .ok hello else .ok world
    readOf2 := fun p => if p = "a" ∨ p = "b" then .ok hello else .ok world
    deleteOf := fun _ => .ok }

/-- A filesystem where `a`, `b`, `c` all hold `"hello"` and deleting `b`
fails with a permission error. -/
def failFS : FS :=
  { statOf := fun _ => .found ⟨1, 5⟩
    readOf := fun _ => .ok hello
    readOf2 := fun _ => .ok hello
    deleteOf := fun p => if p = "b" then .err "Permission denied" else .ok }

/-- A filesystem where `a` and `b` hold `"hello"` during the hashing pass
but `a` reads back as `"world"` during the resolution pass. -/
def cexFS : FS :=
  { statOf := fun _ => .found ⟨1, 5⟩
    readOf := fun _ => .ok hello
    readOf2 := fun _ => .ok world
    deleteOf := fun _ => .ok }

/-- A filesystem where `a` and `b` hold `"hello"` during the hashing pass
but `a` is unreadable during the resolution pass. -/
def vanishFS : FS :=
  { statOf := fun _ => .found ⟨1, 5⟩
    readOf := fun _ => .ok hello
    readOf2 := fun p => if p = "a" then .readError "No such file or directory" else .ok hello
    deleteOf := fun _ => .ok }

/-- A filesystem where `gone` has vanished and `bad` fails `os.stat` with
a permission error. -/
def statFS : FS :=
  { statOf := fun p =>
      if p = "gone" then .notFound
      else if p = "bad" then .statError "Permission denied" else .found ⟨1, 5⟩
    readOf := fun _ => .ok hello
    readOf2 := fun _ => .ok hello
    deleteOf := fun _ => .ok }

/-- A cache file holding, for `a`, exactly the signature `(5, 3)` that
`os.stat` will report again. -/
def c1Cache : JsonCache := [("a", ⟨5, 3⟩, "cachedhash")]

/-- A filesystem where `a` stats as `(5, 3)` — matching `c1Cache` — and is
readable. -/
def c1FS : FS :=
  { statOf := fun _ => .found ⟨5, 3⟩
    readOf := fun _ => .ok hello
    readOf2 := fun _ => .ok hello
    deleteOf := fun _ => .ok }

/-- The grouping state produced by scanning `a` (content `"hello"`) and
`c` (content `"world"`) against an absent cache. -/
def c4gst : GState :=
  { updated_cache := [("a", { sig := PySig.tup ⟨1, 5⟩, hash := hash_file hello }),
                      ("c", { sig := PySig.tup ⟨2, 5⟩, hash := hash_file world })]
    hashes := [(hash_file hello, ["a"]), (hash_file world, ["c"])]
    hashedPaths := ["a", "c"]
    msgs := [] }

/-! ## The claims -/

/-- **C8**: for every file, the content hash is the 64-hex-digit SHA-256
digest of the file's full byte content: `hash_file` reads the file in
fixed 65536-byte chunks (every chunk has at most 65536 bytes), feeds each
chunk to the accumulator, and the result equals the SHA-256 of the whole
content — for the actual 65536-byte chunking and for any other chunking of
the same content. -/
theorem c8_hash_is_chunked_sha256 (c : Content) :
    hash_file c = sha256hex c ∧
    (hash_file c).length = 64 ∧
    (∀ ch ∈ readChunks 65536 c, ch.length ≤ 65536) ∧
    (∀ chunks : List Content, chunks.flatten = c →
      sha256_hexdigest (chunks.foldl sha256_update []) = sha256hex c) := by
  have hmain : ∀ chunks : List Content, chunks.flatten = c →
      sha256_hexdigest (chunks.foldl sha256_update []) = sha256hex c := by
    intro chunks hch
    rw [foldl_update_eq_flatten, List.nil_append, hch]
    rfl
  have h1 : hash_file c = sha256hex c :=
    hmain (readChunks 65536 c) (readChunks_flatten 65536 (by norm_num) c)
  exact ⟨h1, by rw [h1]; exact sha256hex_length c,
    fun ch hch => readChunks_len_le 65536 c ch hch, hmain⟩

/-- Witness for C8 at the content `"hello"` and the one-chunk chunking. -/
theorem c8_hash_is_chunked_sha256_witness :
    hash_file hello = sha256hex hello ∧
    ([hello] : List Content).flatten = hello ∧
    sha256_hexdigest (([hello] : List Content).foldl sha256_update []) = sha256hex hello :=
  ⟨(c8_hash_is_chunked_sha256 hello).1, by simp,
   (c8_hash_is_chunked_sha256 hello).2.2.2 [hello] (by simp)⟩

set_option maxRecDepth 100000 in
/-- **C1** (refuted by the code — code bug): a cache entry whose stored
`(mtime, size)` values equal the freshly computed ones does **not**
suppress the re-read. The stored signature comes back from `json.load` as
a Python list while `get_file_signature` returns a tuple, and Python's
`==` never identifies a list with a tuple, so `cached_entry['sig'] == sig`
is `False` for every entry of a loaded cache and `hash_file` is invoked
for every stat-able file. Concretely: the cache stores `(5, 3)` for `a`,
`os.stat` reports `(5, 3)` again, and the run still hashes `a`. -/
theorem c1_cache_hit_never_fires :
    sigPayload (PySig.lst ⟨5, 3⟩) = (⟨5, 3⟩ : Sig) ∧
    assocGet (load_cache (some c1Cache)) "a" =
      some { sig := PySig.lst ⟨5, 3⟩, hash := "cachedhash" } ∧
    c1FS.statOf "a" = StatRes.found ⟨5, 3⟩ ∧
    pySigEq (PySig.lst ⟨5, 3⟩) (PySig.tup ⟨5, 3⟩) = false ∧
    (find_duplicates c1FS ["a"] (some c1Cache) none "T").hashedPaths = ["a"] := by
  refine ⟨rfl, rfl, rfl, rfl, ?_⟩
  decide

/-- **C4**: if after the grouping pass no hash has more than one path, the
run reports that no duplicates were found and terminates without appending
any log row, without creating the log file, and without deleting any
file. -/
theorem c4_no_duplicates_touches_nothing (fs : FS) (files : List Path)
    (cf : Option JsonCache) (logB : Option (List Row)) (ts : String) (gst : GState)
    (hg : groupedState fs files cf = .ok gst)
    (hnd : duplicatesOf fs files cf = []) :
    (find_duplicates fs files cf logB ts).logAfter = logB ∧
    (find_duplicates fs files cf logB ts).deleted = [] ∧
    (find_duplicates fs files cf logB ts).totalDeleted = 0 ∧
    (find_duplicates fs files cf logB ts).groups = [] ∧
    (find_duplicates fs files cf logB ts).noDupReported = true ∧
    "No duplicates found." ∈ (find_duplicates fs files cf logB ts).msgs ∧
    (find_duplicates fs files cf logB ts).error = none := by
  have hd : gst.hashes.filter (fun q => 1 < q.2.length) = [] := by
    simp only [duplicatesOf, hg] at hnd
    exact hnd
  simp only [find_duplicates, hg, hd]
  simp

set_option maxRecDepth 100000 in
/-- Witness for C4: scanning `a` = `"hello"` and `c` = `"world"` (no
duplicates) leaves the absent log file absent. -/
theorem c4_no_duplicates_touches_nothing_witness :
    (find_duplicates exFS ["a", "c"] none none "T").logAfter = none ∧
    (find_duplicates exFS ["a", "c"] none none "T").deleted = [] :=
  ⟨(c4_no_duplicates_touches_nothing exFS ["a", "c"] none none "T" c4gst rfl rfl).1,
   (c4_no_duplicates_touches_nothing exFS ["a", "c"] none none "T" c4gst rfl rfl).2.1⟩

/-- **C7**: during the signature step only `FileNotFoundError` is treated
as absent (the path is skipped with the state unchanged); a
`.statError` - any other `OSError` from `os.stat` - is not caught
per-file: it aborts the grouping loop with the error, and the whole run
ends with `save_cache` never executed and the log untouched. -/
theorem c7_stat_error_aborts :
    (∀ (cache : List (Path × CacheEntry)) (fs : FS) (st : GState) (p : Path),
       fs.statOf p = .notFound → processFile cache fs st p = .ok st) ∧
    (∀ (cache : List (Path × CacheEntry)) (fs : FS) (st st1 : GState)
       (files1 : List Path) (p : Path) (files2 : List Path) (e : String),
       groupingPass cache fs files1 st = .ok st1 → fs.statOf p = .statError e →
       groupingPass cache fs (files1 ++ p :: files2) st = .error e) ∧
    (∀ (fs : FS) (files : List Path) (cf : Option JsonCache)
       (logB : Option (List Row)) (ts e : String),
       groupedState fs files cf = .error e →
       (find_duplicates fs files cf logB ts).savedCache = none ∧
       (find_duplicates fs files cf logB ts).logAfter = logB ∧
       (find_duplicates fs files cf logB ts).error = some e) := by
  refine ⟨?_, ?_, ?_⟩
  · intro cache fs st p h
    rw [processFile, h]
    rfl
  · intro cache fs st st1 files1 p files2 e hok hstat
    rw [groupingPass_append, hok]
    dsimp only
    rw [groupingPass, processFile, hstat]
    rfl
  · intro fs files cf logB ts e hg
    simp [find_duplicates, hg]

/-- A successfully resolved group is headed by the group's first path:
`ghash` is the dict key and the group's path list is the kept path
followed by exactly the deletion attempts. -/
theorem resolveGroup_ok_shape (fs : FS) (ts h : String) (paths : List Path)
    (o : GroupOutcome) (hok : resolveGroup fs ts h paths = .ok o) :
    o.ghash = h ∧ paths = o.kept :: o.attempts := by
  match paths with
  | [] => simp [resolveGroup] at hok
  | kept :: rest =>
    rcases hre : fs.readOf2 kept with c | e
    · rw [resolveGroup_ok fs ts h kept rest c hre] at hok
      injection hok with hok
      rw [← hok]
      exact ⟨rfl, rfl⟩
    · rw [resolveGroup_err fs ts h kept rest e hre] at hok
      exact absurd hok (by simp)

/-- `find_duplicates` in the branch where duplicates exist. -/
theorem find_duplicates_write (fs : FS) (files : List Path) (cf : Option JsonCache)
    (logB : Option (List Row)) (ts : String) (gst : GState)
    (hg : groupedState fs files cf = .ok gst)
    (hne : (gst.hashes.filter (fun q => 1 < q.2.length)).isEmpty = false) :
    find_duplicates fs files cf logB ts =
      { savedCache := some gst.updated_cache
        logAfter := some ((logB.getD []) ++ (if logB.isSome then [] else [headerRow]) ++
          rowsOfGroups (resolvePass fs ts (gst.hashes.filter (fun q => 1 < q.2.length)) []).1)
        deleted := deletedOfGroups
          (resolvePass fs ts (gst.hashes.filter (fun q => 1 < q.2.length)) []).1
        totalDeleted := (deletedOfGroups
          (resolvePass fs ts (gst.hashes.filter (fun q => 1 < q.2.length)) []).1).length
        groups := (resolvePass fs ts (gst.hashes.filter (fun q => 1 < q.2.length)) []).1
        hashedPaths := gst.hashedPaths
        error := (resolvePass fs ts (gst.hashes.filter (fun q => 1 < q.2.length)) []).2
        noDupReported := false
        msgs := gst.msgs ++
          ((resolvePass fs ts (gst.hashes.filter (fun q => 1 < q.2.length)) []).1.map
            GroupOutcome.msgs).flatten ++
          (match (resolvePass fs ts (gst.hashes.filter (fun q => 1 < q.2.length)) []).2 with
           | none =>
             ["Deleted " ++
               toString (deletedOfGroups
                 (resolvePass fs ts (gst.hashes.filter (fun q => 1 < q.2.length)) []).1).length ++
               " duplicate files."]
           | some _ => []) } := by
  simp only [find_duplicates, hg, hne, Bool.false_eq_true, if_false]

/-- **C2**: for every duplicate group, the kept file is exactly the first
path of the group's sequence and every other path of the group is
attempted for deletion; group sequences list paths in enumeration order
(each is a sublist of the enumerated files), so the first path is the one
that occurred earliest. -/
theorem c2_kept_is_first (fs : FS) (files : List Path) (cf : Option JsonCache)
    (logB : Option (List Row)) (ts : String)
    (hdone : (find_duplicates fs files cf logB ts).error = none) :
    List.Forall₂ (fun g o => o.ghash = g.1 ∧ g.2 = o.kept :: o.attempts)
      (duplicatesOf fs files cf) (find_duplicates fs files cf logB ts).groups ∧
    ∀ g ∈ duplicatesOf fs files cf, g.2.Sublist files := by
  rcases hg : groupedState fs files cf with e | gst
  · simp [find_duplicates, hg] at hdone
  · have hsub : ∀ g ∈ duplicatesOf fs files cf, g.2.Sublist files := by
      intro g hgmem
      have hmem : g ∈ gst.hashes := by
        simp only [duplicatesOf, hg] at hgmem
        exact List.mem_of_mem_filter hgmem
      have := groupingPass_sublist (load_cache cf) fs files initG [] gst
        (by simp [initG]) hg g hmem
      simpa using this
    refine ⟨?_, hsub⟩
    have hfd : duplicatesOf fs files cf = gst.hashes.filter (fun q => 1 < q.2.length) := by
      simp only [duplicatesOf, hg]
    by_cases hemp : (gst.hashes.filter (fun q => 1 < q.2.length)).isEmpty = true
    · have hgr : (find_duplicates fs files cf logB ts).groups = [] := by
        simp [find_duplicates, hg, hemp]
      rw [hfd, hgr, List.isEmpty_iff.mp hemp]
      exact List.Forall₂.nil
    · have hne : (gst.hashes.filter (fun q => 1 < q.2.length)).isEmpty = false := by
        revert hemp
        cases (gst.hashes.filter (fun q => 1 < q.2.length)).isEmpty <;> simp
      rw [find_duplicates_write fs files cf logB ts gst hg hne] at hdone ⊢
      dsimp only at hdone ⊢
      rw [hfd]
      rcases hrp : resolvePass fs ts (gst.hashes.filter (fun q => 1 < q.2.length)) []
        with ⟨out, err⟩
      rw [hrp] at hdone
      dsimp only at hdone
      subst hdone
      exact (resolvePass_ok_forall₂ fs ts _ out hrp).imp
        (fun g o hres => resolveGroup_ok_shape fs ts g.1 g.2 o hres)

set_option maxRecDepth 1000000 in
/-- Witness for C2 at the spec's concrete scenario `a` = `b` = `"hello"`,
`c` = `"world"`. -/
theorem c2_kept_is_first_witness :
    List.Forall₂ (fun g o => o.ghash = g.1 ∧ g.2 = o.kept :: o.attempts)
      (duplicatesOf exFS ["a", "b", "c"] none)
      (find_duplicates exFS ["a", "b", "c"] none none "T").groups ∧
    (hash_file hello, ["a", "b"]) ∈ duplicatesOf exFS ["a", "b", "c"] none ∧
    (["a", "b"] : List Path).Sublist ["a", "b", "c"] :=
  ⟨(c2_kept_is_first exFS ["a", "b", "c"] none none "T" (by decide)).1,
   by decide,
   (c2_kept_is_first exFS ["a", "b", "c"] none none "T" (by decide)).2
     (hash_file hello, ["a", "b"]) (by decide)⟩

/-- Counting through a map whose only preimage of `y` is `x`. -/
theorem count_map_eq_count {α β : Type} [BEq α] [LawfulBEq α] [BEq β] [LawfulBEq β]
    (f : α → β) (y : β) (x : α) (hf : ∀ q, f q = y ↔ q = x) :
    ∀ l : List α, (l.map f).count y = l.count x := by
  intro l
  induction l with
  | nil => simp
  | cons a rest ih =>
    simp only [List.map_cons, List.count_cons, ih]
    by_cases ha : a = x
    · have h1 : f x = y := (hf x).mpr rfl
      simp [ha, h1]
    · have h1 : ¬ f a = y := fun hq => ha ((hf a).mp hq)
      simp [ha, h1]

/-- **C3**: a failing deletion does not abort the run: exactly one
`Failed` row containing the error description is written, the failure is
reported to the console, the failing path is not among the deleted ones,
every other candidate of the group is still attempted (and the failing
path only once — no retry), and the group loop continues with the next
group. -/
theorem c3_deletion_failure_handled (fs : FS) (ts h : String) (kept : Path)
    (rest : List Path) (c : Content) (p : Path) (e : String) (o : GroupOutcome)
    (hre : fs.readOf2 kept = .ok c)
    (hdel : fs.deleteOf p = .err e)
    (hcount : rest.count p = 1)
    (hok : resolveGroup fs ts h (kept :: rest) = .ok o) :
    o.rows.count [ts, "Failed", p, hash_file c ++ " (" ++ e ++ ")"] = 1 ∧
    ("Failed to delete " ++ p ++ ": " ++ e) ∈ o.msgs ∧
    p ∉ o.deletedHere ∧
    o.attempts = rest ∧
    o.attempts.count p = 1 ∧
    (∀ (gs : List (String × List Path)) (acc : List GroupOutcome),
       resolvePass fs ts ((h, kept :: rest) :: gs) acc =
         resolvePass fs ts gs (acc ++ [o])) := by
  have hpmem : p ∈ rest := List.count_pos_iff.mp (by rw [hcount]; omega)
  rw [resolveGroup_ok fs ts h kept rest c hre] at hok
  injection hok with hok
  subst hok
  dsimp only
  refine ⟨?_, ?_, ?_, rfl, hcount, ?_⟩
  · have hf : ∀ q, dupRow fs ts (hash_file c) q =
        [ts, "Failed", p, hash_file c ++ " (" ++ e ++ ")"] ↔ q = p := by
      intro q
      constructor
      · intro hq
        rcases hd' : fs.deleteOf q with _ | e' <;> simp [dupRow, hd'] at hq
        exact hq.1
      · intro hq
        subst hq
        simp [dupRow, hdel]
    have hne2 : ¬ (([ts, "Kept", kept, hash_file c] : Row) =
        [ts, "Failed", p, hash_file c ++ " (" ++ e ++ ")"]) := by
      intro hq
      simp only [List.cons.injEq] at hq
      exact absurd hq.2.1 (by decide)
    rw [List.count_cons, count_map_eq_count (dupRow fs ts (hash_file c)) _ p hf rest,
      hcount, if_neg (by simp [hne2])]
  · exact List.mem_map.mpr ⟨p, hpmem, by simp [dupMsg, hdel]⟩
  · intro hpdel
    have h1 := (List.mem_filter.mp hpdel).2
    rw [delOk] at h1
    have h2 := of_decide_eq_true h1
    rw [hdel] at h2
    exact absurd h2 (by simp)
  · intro gs acc
    simp only [resolvePass, resolveGroup_ok fs ts h kept rest c hre]

/-- The outcome of resolving the group `a`, `b`, `c` (all `"hello"`) on
`failFS`, where deleting `b` fails. -/
def c3o : GroupOutcome :=
  { ghash := "g", kept := "a", keptHash := hash_file hello
    attempts := ["b", "c"]
    deletedHere := ["c"]
    rows := [["T", "Kept", "a", hash_file hello],
             ["T", "Failed", "b", hash_file hello ++ " (" ++ "Permission denied" ++ ")"],
             ["T", "Deleted", "c", hash_file hello]]
    msgs := ["Failed to delete " ++ "b" ++ ": " ++ "Permission denied", "Deleted: " ++ "c"] }

set_option maxRecDepth 1000000 in
/-- Witness for C3: on `failFS`, deleting `b` fails with a permission
error; exactly one `Failed` row is written, `b` is not deleted, `c` is
still attempted and the group loop continues. -/
theorem c3_deletion_failure_handled_witness :
    c3o.rows.count ["T", "Failed", "b", hash_file hello ++ " (" ++ "Permission denied" ++ ")"]
        = 1 ∧
    ("Failed to delete " ++ "b" ++ ": " ++ "Permission denied") ∈ c3o.msgs ∧
    "b" ∉ c3o.deletedHere ∧
    c3o.attempts = ["b", "c"] ∧
    resolvePass failFS "T" [("g", "a" :: ["b", "c"])] [] =
      resolvePass failFS "T" [] ([] ++ [c3o]) :=
  have hm := c3_deletion_failure_handled failFS "T" "g" "a" ["b", "c"] hello "b"
    "Permission denied" c3o rfl rfl (by decide) rfl
  ⟨hm.1, hm.2.1, hm.2.2.1, hm.2.2.2.1, hm.2.2.2.2.2 [] []⟩

/-- The run on `cexFS`: `a` and `b` are grouped as duplicates under the
digest of `"hello"`, but `a` reads back as `"world"` at resolution time. -/
def cexRun : RunOut := find_duplicates cexFS ["a", "b"] none none "T"

/-- The single group outcome of `cexRun`. -/
def cexGroup : GroupOutcome := cexRun.groups.getD 0 default

set_option maxRecDepth 1000000 in
/-- **C5 is false on the code**: the deleted path `b` gets a `Deleted` row
whose hash field is the kept file's hash recomputed at resolution time
(the digest of `"world"`), not the hash under which the paths were grouped
(the digest of `"hello"`). -/
theorem c5_deleted_row_hash_counterexample :
    cexRun.error = none ∧
    cexRun.groups.length = 1 ∧
    cexGroup.ghash = hash_file hello ∧
    cexRun.deleted = ["b"] ∧
    cexGroup.rows.getD 1 [] = ["T", "Deleted", "b", hash_file world] ∧
    hash_file world ≠ hash_file hello := by
  refine ⟨?_, ?_, ?_, ?_, ?_, ?_⟩ <;> decide

/-- **C5 amended**: each successfully deleted path of a group gets a
`Deleted` log row whose hash field is the kept file's hash recomputed at
resolution time; this equals the group's hash whenever the recomputed
digest agrees with the hash the group was filed under. -/
theorem c5_deleted_row_hash_amended (fs : FS) (ts h : String) (kept : Path)
    (rest : List Path) (c : Content) (o : GroupOutcome)
    (hre : fs.readOf2 kept = .ok c)
    (hok : resolveGroup fs ts h (kept :: rest) = .ok o) :
    o.keptHash = hash_file c ∧
    (∀ q ∈ o.deletedHere, [ts, "Deleted", q, o.keptHash] ∈ o.rows) ∧
    (hash_file c = h → ∀ q ∈ o.deletedHere, [ts, "Deleted", q, h] ∈ o.rows) := by
  rw [resolveGroup_ok fs ts h kept rest c hre] at hok
  injection hok with hok
  subst hok
  dsimp only
  have hdel : ∀ q ∈ (rest.filter (delOk fs)),
      ([ts, "Deleted", q, hash_file c] : Row) ∈
        ([ts, "Kept", kept, hash_file c] : Row) :: rest.map (dupRow fs ts (hash_file c)) := by
    intro q hq
    have hq1 := List.mem_filter.mp hq
    have hq2 : fs.deleteOf q = DeleteRes.ok := of_decide_eq_true hq1.2
    refine List.mem_cons_of_mem _ (List.mem_map.mpr ⟨q, hq1.1, ?_⟩)
    simp [dupRow, hq2]
  exact ⟨rfl, hdel, fun hh q hq => by rw [← hh]; exact hdel q hq⟩

/-- The group outcome on `cexFS` for the group `a`, `b` keyed `g`. -/
def c5o : GroupOutcome :=
  { ghash := "g", kept := "a", keptHash := hash_file world
    attempts := ["b"]
    deletedHere := ["b"]
    rows := [["T", "Kept", "a", hash_file world], ["T", "Deleted", "b", hash_file world]]
    msgs := ["Deleted: " ++ "b"] }

set_option maxRecDepth 1000000 in
/-- Witness for the amended C5: the deleted `b` gets a `Deleted` row
carrying the recomputed kept hash. -/
theorem c5_deleted_row_hash_amended_witness :
    c5o.keptHash = hash_file world ∧
    ["T", "Deleted", "b", c5o.keptHash] ∈ c5o.rows :=
  have hm := c5_deleted_row_hash_amended cexFS "T" "g" "a" ["b"] world c5o rfl rfl
  ⟨hm.1, hm.2.1 "b" (by decide)⟩

/-- The grouping state produced by scanning `a` and `b` (both `"hello"`)
against an absent cache. -/
def c6gst : GState :=
  { updated_cache := [("a", { sig := PySig.tup ⟨1, 5⟩, hash := hash_file hello }),
                      ("b", { sig := PySig.tup ⟨1, 5⟩, hash := hash_file hello })]
    hashes := [(hash_file hello, ["a", "b"])]
    hashedPaths := ["a", "b"]
    msgs := [] }

/-- **C6**: the kept file's hash is recomputed at resolution time with no
error handling: if reading the kept file of some group raises after the
groups before it resolved cleanly, the exception propagates — the run ends
with that error, the remaining groups are unprocessed, the rows already
appended (and the header, if written) remain in the log, and the cache
(saved before the resolution phase) stays saved. -/
theorem c6_rehash_error_aborts (fs : FS) (files : List Path) (cf : Option JsonCache)
    (logB : Option (List Row)) (ts : String) (gst : GState)
    (gs1 : List (String × List Path)) (h : String) (kept : Path) (rest : List Path)
    (gs2 : List (String × List Path)) (acc : List GroupOutcome) (e : String)
    (hg : groupedState fs files cf = .ok gst)
    (hd : duplicatesOf fs files cf = gs1 ++ (h, kept :: rest) :: gs2)
    (hok : resolvePass fs ts gs1 [] = (acc, none))
    (hre : fs.readOf2 kept = .readError e) :
    (find_duplicates fs files cf logB ts).error = some e ∧
    (find_duplicates fs files cf logB ts).groups = acc ∧
    (find_duplicates fs files cf logB ts).logAfter =
      some ((logB.getD []) ++ (if logB.isSome then [] else [headerRow]) ++
        rowsOfGroups acc) ∧
    (find_duplicates fs files cf logB ts).savedCache = some gst.updated_cache ∧
    (find_duplicates fs files cf logB ts).deleted = deletedOfGroups acc := by
  have hd' : gst.hashes.filter (fun q => 1 < q.2.length) = gs1 ++ (h, kept :: rest) :: gs2 := by
    simp only [duplicatesOf, hg] at hd
    exact hd
  have hne : (gst.hashes.filter (fun q => 1 < q.2.length)).isEmpty = false := by
    rw [hd']
    cases gs1 <;> rfl
  have hres : resolvePass fs ts (gst.hashes.filter (fun q => 1 < q.2.length)) [] =
      (acc, some e) := by
    rw [hd', resolvePass_append, hok]
    dsimp only
    simp only [resolvePass, resolveGroup_err fs ts h kept rest e hre]
  rw [find_duplicates_write fs files cf logB ts gst hg hne]
  rw [hres]
  exact ⟨rfl, rfl, rfl, rfl, rfl⟩

set_option maxRecDepth 1000000 in
/-- Witness for C6: `a` and `b` are duplicates of `"hello"` but `a` is
unreadable at resolution time; the run aborts with the error, no group is
resolved, and the cache stays saved. -/
theorem c6_rehash_error_aborts_witness :
    (find_duplicates vanishFS ["a", "b"] none none "T").error =
      some "No such file or directory" ∧
    (find_duplicates vanishFS ["a", "b"] none none "T").groups = [] ∧
    (find_duplicates vanishFS ["a", "b"] none none "T").savedCache =
      some c6gst.updated_cache :=
  have hm := c6_rehash_error_aborts vanishFS ["a", "b"] none none "T" c6gst []
    (hash_file hello) "a" ["b"] [] [] "No such file or directory" rfl rfl rfl rfl
  ⟨hm.1, hm.2.1, hm.2.2.2.1⟩

/-- Witness for C7: `gone` has vanished (skipped), `bad` fails `os.stat`
with a permission error and aborts the run before the cache is saved. -/
theorem c7_stat_error_aborts_witness :
    processFile [] statFS initG "gone" = .ok initG ∧
    groupingPass [] statFS ["gone", "bad", "z"] initG = .error "Permission denied" ∧
    (find_duplicates statFS ["gone", "bad", "z"] none none "T").savedCache = none :=
  ⟨c7_stat_error_aborts.1 [] statFS initG "gone" rfl,
   c7_stat_error_aborts.2.1 [] statFS initG initG ["gone"] "bad" ["z"] "Permission denied"
     rfl rfl,
   (c7_stat_error_aborts.2.2 statFS ["gone", "bad", "z"] none none "T" "Permission denied"
     rfl).1⟩

/-- Every row written during a run's resolution phase is
`[timestamp, action, path, hash]` with the run's timestamp and an action
among `Kept`, `Deleted`, `Failed`. -/
theorem find_groups_row_shape (fs : FS) (files : List Path) (cf : Option JsonCache)
    (logB : Option (List Row)) (ts : String) :
    ∀ row ∈ rowsOfGroups (find_duplicates fs files cf logB ts).groups,
      ∃ a p x, row = [ts, a, p, x] ∧ (a = "Kept" ∨ a = "Deleted" ∨ a = "Failed") := by
  intro row hrow
  have hex : ∃ o ∈ (find_duplicates fs files cf logB ts).groups, row ∈ o.rows := by
    rw [rowsOfGroups] at hrow
    rcases List.mem_flatten.mp hrow with ⟨rows, hrows, hr⟩
    rcases List.mem_map.mp hrows with ⟨o, ho, hor⟩
    exact ⟨o, ho, by rw [hor]; exact hr⟩
  rcases hex with ⟨o, ho, hr⟩
  rcases hg : groupedState fs files cf with e | gst
  · have hgr : (find_duplicates fs files cf logB ts).groups = [] := by
      simp [find_duplicates, hg]
    rw [hgr] at ho
    exact absurd ho (by simp)
  · by_cases hemp : (gst.hashes.filter (fun q => 1 < q.2.length)).isEmpty = true
    · have hgr : (find_duplicates fs files cf logB ts).groups = [] := by
        simp [find_duplicates, hg, hemp]
      rw [hgr] at ho
      exact absurd ho (by simp)
    · have hne : (gst.hashes.filter (fun q => 1 < q.2.length)).isEmpty = false := by
        revert hemp
        cases (gst.hashes.filter (fun q => 1 < q.2.length)).isEmpty <;> simp
      rw [find_duplicates_write fs files cf logB ts gst hg hne] at ho
      dsimp only at ho
      rcases resolvePass_mem fs ts _ [] o ho with h0 | ⟨g, _, hres⟩
      · exact absurd h0 (by simp)
      · exact resolveGroup_rows_shape fs ts g.1 g.2 o hres row hr

/-- **C9**: every log row appended during a run — `Kept`, `Deleted` and
`Failed` alike, across all groups — starts with the same timestamp string,
the one captured once before the first group is processed. -/
theorem c9_rows_share_timestamp (fs : FS) (files : List Path) (cf : Option JsonCache)
    (logB : Option (List Row)) (ts : String) (row : Row)
    (hrow : row ∈ rowsOfGroups (find_duplicates fs files cf logB ts).groups) :
    row.head? = some ts := by
  rcases find_groups_row_shape fs files cf logB ts row hrow with ⟨a, p, x, hshape, _⟩
  rw [hshape]
  rfl

set_option maxRecDepth 1000000 in
/-- Witness for C9 at the concrete scenario: the `Kept` row of the run on
`a` = `b` = `"hello"`, `c` = `"world"` starts with the timestamp `T`. -/
theorem c9_rows_share_timestamp_witness :
    (["T", "Kept", "a", hash_file hello] : Row).head? = some "T" :=
  c9_rows_share_timestamp exFS ["a", "b", "c"] none none "T"
    ["T", "Kept", "a", hash_file hello] (by decide)

/-- No resolution-phase row is the header row (its action cell is never
the literal `Action`). -/
theorem find_groups_no_header (fs : FS) (files : List Path) (cf : Option JsonCache)
    (logB : Option (List Row)) (ts : String) :
    headerRow ∉ rowsOfGroups (find_duplicates fs files cf logB ts).groups := by
  intro hmem
  rcases find_groups_row_shape fs files cf logB ts headerRow hmem with ⟨a, p, x, hshape, ha⟩
  rw [headerRow] at hshape
  simp only [List.cons.injEq, and_true] at hshape
  rcases ha with h | h | h <;> rw [h] at hshape <;> exact absurd hshape.2.1 (by decide)

/-- The two possible log outcomes of a run: untouched, or appended-to
(with the header added exactly when the file did not exist). -/
theorem find_duplicates_log_cases (fs : FS) (files : List Path) (cf : Option JsonCache)
    (logB : Option (List Row)) (ts : String) :
    (find_duplicates fs files cf logB ts).logAfter = logB ∨
    (find_duplicates fs files cf logB ts).logAfter =
      some ((logB.getD []) ++ (if logB.isSome then [] else [headerRow]) ++
        rowsOfGroups (find_duplicates fs files cf logB ts).groups) := by
  rcases hg : groupedState fs files cf with e | gst
  · left
    simp [find_duplicates, hg]
  · by_cases hemp : (gst.hashes.filter (fun q => 1 < q.2.length)).isEmpty = true
    · left
      simp [find_duplicates, hg, hemp]
    · right
      have hne : (gst.hashes.filter (fun q => 1 < q.2.length)).isEmpty = false := by
        revert hemp
        cases (gst.hashes.filter (fun q => 1 < q.2.length)).isEmpty <;> simp
      rw [find_duplicates_write fs files cf logB ts gst hg hne]

/-- The log invariant maintained across runs: either the file does not
exist, or its first row is the header and the header occurs exactly
once. -/
def logInv (l : Option (List Row)) : Prop :=
  l = none ∨ (headerCount l = 1 ∧ (rowsOfLog l).head? = some headerRow)

/-- One run appends — never truncates. -/
theorem runStep_appends (inp : RunInput) (st : MState) :
    ∃ new, rowsOfLog (runStep inp st).log = rowsOfLog st.log ++ new := by
  have hlog : (runStep inp st).log =
      (find_duplicates inp.fs inp.files st.cacheFile st.log inp.ts).logAfter := rfl
  rcases find_duplicates_log_cases inp.fs inp.files st.cacheFile st.log inp.ts with hc | hc
  · exact ⟨[], by rw [hlog, hc]; simp⟩
  · rcases hst : st.log with _ | rows
    · refine ⟨[headerRow] ++
        rowsOfGroups (find_duplicates inp.fs inp.files st.cacheFile st.log inp.ts).groups, ?_⟩
      rw [hlog, hc, hst]
      simp [rowsOfLog]
    · refine ⟨rowsOfGroups (find_duplicates inp.fs inp.files st.cacheFile st.log inp.ts).groups, ?_⟩
      rw [hlog, hc, hst]
      simp [rowsOfLog]

/-- One run adds the header exactly when the log file did not exist and
the run wrote; otherwise the header count is unchanged. -/
theorem runStep_headerCount (inp : RunInput) (st : MState) :
    headerCount (runStep inp st).log =
      headerCount st.log +
        (if st.log = none ∧ (runStep inp st).log ≠ none then 1 else 0) := by
  have hlog : (runStep inp st).log =
      (find_duplicates inp.fs inp.files st.cacheFile st.log inp.ts).logAfter := rfl
  have hnh : (rowsOfGroups
      (find_duplicates inp.fs inp.files st.cacheFile st.log inp.ts).groups).count headerRow
      = 0 :=
    List.count_eq_zero.mpr (find_groups_no_header inp.fs inp.files st.cacheFile st.log inp.ts)
  rcases find_duplicates_log_cases inp.fs inp.files st.cacheFile st.log inp.ts with hc | hc
  · rw [hlog, hc]
    rcases hst : st.log with _ | rows <;> simp [hst]
  · rcases hst : st.log with _ | rows
    · rw [hst] at hnh
      rw [hlog, hc, hst]
      simp [headerCount, rowsOfLog, hnh, List.count_append, hc, hst]
    · rw [hst] at hnh
      rw [hlog, hc, hst]
      simp [headerCount, rowsOfLog, hnh, List.count_append]

/-- One run preserves the log invariant. -/
theorem runStep_logInv (inp : RunInput) (st : MState) (hinv : logInv st.log) :
    logInv (runStep inp st).log := by
  have hlog : (runStep inp st).log =
      (find_duplicates inp.fs inp.files st.cacheFile st.log inp.ts).logAfter := rfl
  have hnh : (rowsOfGroups
      (find_duplicates inp.fs inp.files st.cacheFile st.log inp.ts).groups).count headerRow
      = 0 :=
    List.count_eq_zero.mpr (find_groups_no_header inp.fs inp.files st.cacheFile st.log inp.ts)
  rcases find_duplicates_log_cases inp.fs inp.files st.cacheFile st.log inp.ts with hc | hc
  · rw [logInv, hlog, hc]
    exact hinv
  · rcases hst : st.log with _ | rows
    · right
      rw [hst] at hnh
      rw [hlog, hc, hst]
      constructor
      · simp [headerCount, rowsOfLog, List.count_append, hnh]
      · simp [rowsOfLog]
    · rcases hinv with hnone | ⟨hcount, hhead⟩
      · rw [hst] at hnone
        exact absurd hnone (by simp)
      · right
        rw [hst] at hcount hhead hnh
        constructor
        · rw [hlog, hc, hst]
          simp only [headerCount, rowsOfLog, List.count_append, hnh] at hcount ⊢
          simp [hcount]
        · rw [hlog, hc, hst]
          rcases rows with _ | ⟨r, rs⟩
          · exact absurd hhead (by simp [rowsOfLog])
          · simp only [rowsOfLog, List.head?_cons, Option.some.injEq] at hhead
            simp [rowsOfLog, hhead]

/-- The invariant holds after any sequence of runs from any invariant
state. -/
theorem multiRun_logInv : ∀ (runs : List RunInput) (st : MState),
    logInv st.log → logInv (multiRun runs st).log := by
  intro runs
  induction runs with
  | nil => intro st hinv; exact hinv
  | cons inp rest ih =>
    intro st hinv
    exact ih (runStep inp st) (runStep_logInv inp st hinv)

/-- **C10**: the log file is only ever appended to — a run never truncates
or rewrites existing content — and the header row is written exactly when
the log file does not yet exist at the start of the resolution phase, so
over any sequence of runs starting with no log file the header appears
exactly once (as the first row) as soon as the file exists. -/
theorem c10_log_append_only :
    (∀ (inp : RunInput) (st : MState),
       ∃ new, rowsOfLog (runStep inp st).log = rowsOfLog st.log ++ new) ∧
    (∀ (inp : RunInput) (st : MState),
       headerCount (runStep inp st).log =
         headerCount st.log +
           (if st.log = none ∧ (runStep inp st).log ≠ none then 1 else 0)) ∧
    (∀ runs : List RunInput,
       (multiRun runs ⟨none, none⟩).log = none ∨
       (headerCount (multiRun runs ⟨none, none⟩).log = 1 ∧
        (rowsOfLog (multiRun runs ⟨none, none⟩).log).head? = some headerRow)) :=
  ⟨runStep_appends, runStep_headerCount,
   fun runs => multiRun_logInv runs ⟨none, none⟩ (Or.inl rfl)⟩

end DupliCheck
